import Mathlib

/-!
Verification of the pi digit-extraction kernel (Bellard's algorithm, Rust port
in `src/main.rs`).

The Rust source works with `i32` values and an `i64` intermediate inside
`mul_mod`.  The shallow embedding below represents machine integers as `Int`;
two's-complement truncation is made explicit with `wrap32`/`wrap64` in
`mul_mod`, where the source deliberately widens to 64 bits to avoid overflow.
Rust's `%` on `i32` is truncated remainder, embedded as `Int.tmod`; Rust `/`
is truncated division, embedded as `Int.tdiv`; Rust's arithmetic right shift
`>> 1` is floor division by 2, which for the positive divisor 2 coincides with
Lean's `/` (Euclidean division), so it is embedded as `/ 2`.  The bit test
`(x & 1) != 0` is the parity test, embedded as `x % 2 ≠ 0` (for every integer,
the low two's-complement bit is 1 exactly when the value is odd).
-/

/-- Interpretation of a two's-complement truncation to 32 bits (`as i32`). -/
def wrap32 (x : Int) : Int := (x + 2 ^ 31) % 2 ^ 32 - 2 ^ 31

/-- Interpretation of a two's-complement truncation to 64 bits (`as i64`). -/
def wrap64 (x : Int) : Int := (x + 2 ^ 63) % 2 ^ 64 - 2 ^ 63

/-- `fn mul_mod(a: i32, b: i32, n: i32) -> i32`
(`(((a as i64) * (b as i64)) % (n as i64)) as i32`).
The product is formed in 64-bit width and the remainder is truncated back
to 32 bits. -/
def mul_mod (a b n : Int) : Int := wrap32 (Int.tmod (wrap64 (a * b)) n)

lemma wrap32_eq_of_bounds {x : Int} (h1 : -2 ^ 31 ≤ x) (h2 : x < 2 ^ 31) :
    wrap32 x = x := by
  unfold wrap32
  omega

lemma wrap64_eq_of_bounds {x : Int} (h1 : -2 ^ 63 ≤ x) (h2 : x < 2 ^ 63) :
    wrap64 x = x := by
  unfold wrap64
  omega

lemma neg_tmod_eq (a b : Int) : Int.tmod (-a) b = -Int.tmod a b := by
  rw [Int.tmod_def, Int.tmod_def, Int.neg_tdiv]
  ring

lemma tmod_neg_lower {a b : Int} (hb : 0 < b) : -b < Int.tmod a b := by
  rcases le_or_lt 0 a with ha | ha
  · have := Int.tmod_nonneg b ha
    omega
  · have h1 : Int.tmod (-a) b < b := Int.tmod_lt_of_pos (-a) hb
    have h2 : Int.tmod (-a) b = -Int.tmod a b := neg_tmod_eq a b
    omega

lemma tmod_eq_zero_iff_dvd (a b : Int) : Int.tmod a b = 0 ↔ b ∣ a :=
  ⟨fun h => Int.dvd_iff_tmod_eq_zero.mpr h, fun h => Int.dvd_iff_tmod_eq_zero.mp h⟩

lemma mul_mod_eq_tmod {a b n : Int} (hn : 0 < n) (hn' : n < 2 ^ 31)
    (ha1 : -2 ^ 31 ≤ a) (ha2 : a < 2 ^ 31) (hb1 : -2 ^ 31 ≤ b) (hb2 : b < 2 ^ 31) :
    mul_mod a b n = Int.tmod (a * b) n := by
  have hub : a * b < 2 ^ 63 := by nlinarith
  have hlb : -2 ^ 63 ≤ a * b := by nlinarith
  have h64 : wrap64 (a * b) = a * b := wrap64_eq_of_bounds hlb hub
  have hup : Int.tmod (a * b) n < n := Int.tmod_lt_of_pos (a * b) hn
  have hlo : -n < Int.tmod (a * b) n := tmod_neg_lower hn
  unfold mul_mod
  rw [h64, wrap32_eq_of_bounds (by omega) (by omega)]

lemma mul_mod_eq_emod {a b n : Int} (hn : 0 < n) (hn' : n < 2 ^ 31)
    (ha1 : 0 ≤ a) (ha2 : a < 2 ^ 31) (hb1 : 0 ≤ b) (hb2 : b < 2 ^ 31) :
    mul_mod a b n = a * b % n := by
  rw [mul_mod_eq_tmod hn hn' (by omega) ha2 (by omega) hb2]
  exact Int.tmod_eq_emod (by positivity) (le_of_lt hn)

lemma mul_mod_bounds {a b n : Int} (hn : 0 < n) (hn' : n < 2 ^ 31)
    (ha1 : 0 ≤ a) (ha2 : a < 2 ^ 31) (hb1 : 0 ≤ b) (hb2 : b < 2 ^ 31) :
    0 ≤ mul_mod a b n ∧ mul_mod a b n < n := by
  rw [mul_mod_eq_emod hn hn' ha1 ha2 hb1 hb2]
  exact ⟨Int.emod_nonneg _ (by omega), Int.emod_lt_of_pos _ hn⟩

/-- C4: for every `n > 0` and all `a`, `b` representable in 32 bits (whose
product therefore fits the 64-bit intermediate, including the edge cases
`a = 0`, `b = 0`, `a = n-1`, `b = n-1`), `mul_mod a b n` equals `(a*b) mod n`
— the remainder in Rust's `%` semantics for all such inputs, which coincides
with the mathematical residue `(a*b) % n` whenever `a` and `b` are
non-negative.  No truncation occurs: the 64-bit intermediate absorbs the
product and the result fits back into 32 bits. -/
theorem mul_mod_spec (a b n : Int) (hn : 0 < n) (hn' : n < 2 ^ 31)
    (ha1 : -2 ^ 31 ≤ a) (ha2 : a < 2 ^ 31) (hb1 : -2 ^ 31 ≤ b) (hb2 : b < 2 ^ 31) :
    mul_mod a b n = Int.tmod (a * b) n ∧
    (0 ≤ a → 0 ≤ b → mul_mod a b n = a * b % n) := by
  refine ⟨mul_mod_eq_tmod hn hn' ha1 ha2 hb1 hb2, fun hna hnb => ?_⟩
  exact mul_mod_eq_emod hn hn' hna ha2 hnb hb2

theorem mul_mod_spec_witness :
    (0 : Int) < 7 ∧ (7 : Int) < 2 ^ 31 ∧
    (mul_mod 6 6 7 = Int.tmod (6 * 6) 7 ∧
      (0 ≤ (6 : Int) → 0 ≤ (6 : Int) → mul_mod 6 6 7 = 6 * 6 % 7)) :=
  ⟨by decide, by decide,
    mul_mod_spec 6 6 7 (by decide) (by decide) (by decide) (by decide)
      (by decide) (by decide)⟩

/-- Trial-division loop of `fn is_prime(n: i32) -> bool`: odd candidates
`i = 3, 5, 7, ...` are tried until `i * i > n`. -/
def isPrimeLoop (n i : Int) : Bool :=
  if i * i > n then true
  else if Int.tmod n i = 0 then false
  else isPrimeLoop n (i + 2)
termination_by (n + 2 - i).toNat
decreasing_by
  rename_i h
  push_neg at h
  have hi : i ≤ n + 1 := by
    rcases le_or_lt 1 i with h1 | h1
    · nlinarith
    · nlinarith
  omega

/-- `fn is_prime(n: i32) -> bool`: even `n` (including 2) is rejected at once,
odd `n` goes through the trial-division loop. -/
def is_prime (n : Int) : Bool :=
  if Int.tmod n 2 = 0 then false else isPrimeLoop n 3

lemma prime_iff_no_small_divisor {n : Int} (hn : 2 ≤ n) :
    Nat.Prime n.toNat ↔ ∀ m : Int, 2 ≤ m → m * m ≤ n → ¬ m ∣ n := by
  have hT : n.toNat = n.natAbs := by omega
  rw [hT]
  constructor
  · intro hp m hm hmm hdvd
    have h1 : m.natAbs ∣ n.natAbs := Int.natAbs_dvd_natAbs.mpr hdvd
    rcases hp.eq_one_or_self_of_dvd m.natAbs h1 with h | h
    · omega
    · have hmn : m = n := by omega
      nlinarith
  · intro H
    refine Nat.prime_def_le_sqrt.mpr ⟨by omega, fun m hm hms hd => ?_⟩
    have hsq : m * m ≤ n.natAbs := Nat.le_sqrt.mp hms
    have hmm : (m : Int) * m ≤ n := by exact_mod_cast show ((m * m : Nat) : Int) ≤ n by omega
    refine H (m : Int) (by exact_mod_cast hm) hmm ?_
    have hd' : (m : Int) ∣ (n.natAbs : Int) := Int.natCast_dvd_natCast.mpr hd
    have hn' : (n.natAbs : Int) = n := by omega
    rwa [hn'] at hd'

lemma isPrimeLoop_iff {n : Int} (hn : 2 ≤ n) (hodd : ¬ (2 : Int) ∣ n) :
    ∀ (N : Nat) (i : Int), (n + 2 - i).toNat ≤ N → 3 ≤ i → ¬ (2 : Int) ∣ i →
      (∀ m : Int, 2 ≤ m → m < i → ¬ m ∣ n) →
      (isPrimeLoop n i = true ↔ ∀ m : Int, 2 ≤ m → m * m ≤ n → ¬ m ∣ n) := by
  intro N
  induction N with
  | zero =>
    intro i hfuel hi _ hbelow
    have hni : n + 2 ≤ i := by omega
    have hii : i * i > n := by nlinarith
    rw [isPrimeLoop, if_pos hii]
    simp only [true_iff]
    intro m hm hmm hdvd
    have hmi : m < i := by nlinarith
    exact hbelow m hm hmi hdvd
  | succ N ih =>
    intro i hfuel hi hiodd hbelow
    rw [isPrimeLoop]
    rcases lt_or_le n (i * i) with hii | hii
    · rw [if_pos hii]
      simp only [true_iff]
      intro m hm hmm hdvd
      have hmi : m < i := by nlinarith
      exact hbelow m hm hmi hdvd
    · rw [if_neg (by omega)]
      rcases eq_or_ne (Int.tmod n i) 0 with hdv | hdv
      · rw [if_pos hdv]
        refine iff_of_false (by simp) ?_
        push_neg
        exact ⟨i, by omega, hii, (tmod_eq_zero_iff_dvd n i).mp hdv⟩
      · rw [if_neg hdv]
        have hile : i ≤ n + 1 := by nlinarith
        refine ih (i + 2) (by omega) (by omega) (by omega) ?_
        intro m hm hmi hdvd
        rcases lt_or_le m i with hlt | hge
        · exact hbelow m hm hlt hdvd
        · rcases eq_or_ne m i with rfl | hne
          · exact hdv ((tmod_eq_zero_iff_dvd n m).mpr hdvd)
          · have hmeq : m = i + 1 := by omega
            have h2m : (2 : Int) ∣ m := by omega
            exact hodd (dvd_trans h2m hdvd)

lemma is_prime_iff {n : Int} (hn : 3 ≤ n) :
    is_prime n = true ↔ Nat.Prime n.toNat := by
  rcases eq_or_ne (Int.tmod n 2) 0 with hev | hod
  · have h2n : (2 : Int) ∣ n := (tmod_eq_zero_iff_dvd n 2).mp hev
    rw [is_prime, if_pos hev]
    refine iff_of_false (by simp) ?_
    intro hp
    have h1 : (2 : Nat) ∣ n.toNat := by omega
    rcases hp.eq_one_or_self_of_dvd 2 h1 with h | h <;> omega
  · have h2n : ¬ (2 : Int) ∣ n := fun h => hod ((tmod_eq_zero_iff_dvd n 2).mpr h)
    rw [is_prime, if_neg hod]
    rw [isPrimeLoop_iff (by omega) h2n (n + 2 - 3).toNat 3 (by omega) (by omega)
        (by omega) ?_,
      prime_iff_no_small_divisor (by omega)]
    intro m hm hmi hdvd
    have hm2 : m = 2 := by omega
    exact h2n (hm2 ▸ hdvd)

lemma exists_isPrime_true (n : Int) :
    ∃ k : Nat, is_prime (n + 1 + (k : Int)) = true := by
  obtain ⟨p, hple, hp⟩ := Nat.exists_infinite_primes (max (n + 1).toNat 3)
  have hp3 : 3 ≤ (p : Int) := by
    have := le_max_right (n + 1).toNat 3
    omega
  have hpn : n + 1 ≤ (p : Int) := by
    have := le_max_left (n + 1).toNat 3
    omega
  have hptrue : is_prime (p : Int) = true := by
    rw [is_prime_iff hp3]
    have : ((p : Int)).toNat = p := by omega
    rw [this]
    exact hp
  refine ⟨((p : Int) - (n + 1)).toNat, ?_⟩
  have heq : n + 1 + ((((p : Int) - (n + 1)).toNat : Nat) : Int) = (p : Int) := by omega
  rw [heq]
  exact hptrue

/-- `fn next_prime(n: i32) -> i32`: increments and tests until `is_prime`
accepts.  (The Rust loop always terminates: any odd `m` with `m * m < 9`
already passes the trial-division loop, and beyond that primes are
unbounded.) -/
def next_prime (n : Int) : Int :=
  if h : is_prime (n + 1) = true then n + 1 else next_prime (n + 1)
termination_by Nat.find (exists_isPrime_true n)
decreasing_by
  have hspec := Nat.find_spec (exists_isPrime_true n)
  have hne : Nat.find (exists_isPrime_true n) ≠ 0 := by
    intro h0
    rw [h0] at hspec
    simp only [Nat.cast_zero, add_zero] at hspec
    exact h hspec
  have hle : Nat.find (exists_isPrime_true (n + 1)) ≤
      Nat.find (exists_isPrime_true n) - 1 := by
    refine Nat.find_le ?_
    have heq : n + 1 + 1 + ((Nat.find (exists_isPrime_true n) - 1 : Nat) : Int) =
        n + 1 + ((Nat.find (exists_isPrime_true n) : Nat) : Int) := by omega
    rw [heq]
    exact hspec
  omega

lemma next_prime_gt_and_isPrime (n : Int) :
    n < next_prime n ∧ is_prime (next_prime n) = true := by
  induction n using next_prime.induct with
  | case1 n h =>
    rw [next_prime, dif_pos h]
    exact ⟨by omega, h⟩
  | case2 n h ih =>
    rw [next_prime, dif_neg h]
    exact ⟨by omega, ih.2⟩

lemma next_prime_minimal (n : Int) :
    ∀ m : Int, n < m → m < next_prime n → is_prime m = false := by
  induction n using next_prime.induct with
  | case1 n h =>
    rw [next_prime, dif_pos h]
    intro m h1 h2
    omega
  | case2 n h ih =>
    rw [next_prime, dif_neg h]
    intro m h1 h2
    rcases eq_or_ne m (n + 1) with rfl | hne
    · simpa using h
    · exact ih m (by omega) h2

/-- C2 (counterexample): the claim fails at `n = 2`: `2` is prime, yet
`is_prime 2 = false`, because the even-rejection branch `n % 2 == 0` fires
for `n = 2` as well. -/
theorem is_prime_cex_two :
    (2 : Int) ≥ 2 ∧ is_prime 2 = false ∧ Nat.Prime (2 : Int).toNat := by
  refine ⟨by decide, ?_, by decide⟩
  rw [is_prime, if_pos (by decide)]

/-- C2 (amended): for every `n ≥ 3`, `is_prime n` returns `true` iff `n` is
prime — even `n` are rejected immediately and odd `n` are tested by trial
division by odd candidates up to `√n`.  (At `n = 2` the function wrongly
returns `false`.) -/
theorem is_prime_correct (n : Int) (hn : 3 ≤ n) :
    is_prime n = true ↔ Nat.Prime n.toNat :=
  is_prime_iff hn

theorem is_prime_correct_witness :
    (3 : Int) ≤ 5 ∧ (is_prime 5 = true ↔ Nat.Prime (5 : Int).toNat) :=
  ⟨by decide, is_prime_correct 5 (by decide)⟩

/-- C3 (counterexample): the claim fails at `n = 1`: the smallest prime
strictly greater than `1` is `2`, but `next_prime 1 = 3`, because
`is_prime 2 = false` makes the search skip over `2`. -/
theorem next_prime_cex_one :
    next_prime 1 = 3 ∧ Nat.Prime (2 : Int).toNat ∧ (1 : Int) < 2 ∧ (2 : Int) < 3 := by
  have h2 : is_prime 2 = false := by
    rw [is_prime, if_pos (by decide)]
  have h3 : is_prime 3 = true := by
    rw [is_prime, if_neg (by decide), isPrimeLoop, if_pos (by decide)]
  refine ⟨?_, by decide, by decide, by decide⟩
  rw [next_prime]
  norm_num [h2]
  rw [next_prime]
  norm_num [h3]

/-- C3 (amended): for every `n ≥ 2`, `next_prime n` returns the smallest
prime strictly greater than `n`.  (For `n ≤ 1` the result is wrong:
`next_prime 1 = 3` skips the prime `2`.) -/
theorem next_prime_least (n : Int) (hn : 2 ≤ n) :
    n < next_prime n ∧ Nat.Prime (next_prime n).toNat ∧
      ∀ m : Int, n < m → m < next_prime n → ¬ Nat.Prime m.toNat := by
  obtain ⟨hgt, htrue⟩ := next_prime_gt_and_isPrime n
  refine ⟨hgt, ?_, ?_⟩
  · exact (is_prime_iff (by omega)).mp htrue
  · intro m h1 h2 hp
    have hfalse : is_prime m = false := next_prime_minimal n m h1 h2
    have : is_prime m = true := (is_prime_iff (by omega)).mpr hp
    rw [this] at hfalse
    simp at hfalse

theorem next_prime_least_witness :
    (2 : Int) ≤ 2 ∧
      (2 < next_prime 2 ∧ Nat.Prime (next_prime 2).toNat ∧
        ∀ m : Int, 2 < m → m < next_prime 2 → ¬ Nat.Prime m.toNat) :=
  ⟨by decide, next_prime_least 2 (by decide)⟩

lemma tmod_natAbs_lt (v u : Int) (hu : u ≠ 0) :
    (Int.tmod v u).natAbs < u.natAbs := by
  rcases lt_or_gt_of_ne hu with hneg | hpos
  · have heq : Int.tmod v u = Int.tmod v (-u) := (Int.tmod_neg v u).symm
    have h1 : Int.tmod v (-u) < -u := Int.tmod_lt_of_pos v (by omega)
    have h2 : -(-u) < Int.tmod v (-u) := tmod_neg_lower (by omega)
    omega
  · have h1 : Int.tmod v u < u := Int.tmod_lt_of_pos v hpos
    have h2 : -u < Int.tmod v u := tmod_neg_lower hpos
    omega

/-- Loop of `fn inv_mod(x: i32, y: i32) -> i32` (extended Euclid).  One Rust
iteration computes `q = v / u` and rotates `(c, a)` and `(u, v)`; the loop
stops when the new `u` hits `0` and the result is the current `a`
(the pre-rotation `c`).  The entry guard `u = 0` is unreachable on the
function's domain (`x > 0`); in Rust that state would be a division by zero. -/
def invModLoop (u v c a : Int) : Int :=
  if u = 0 then a
  else
    invModLoop (v - Int.tdiv v u * u) u (a - Int.tdiv v u * c) c
termination_by u.natAbs
decreasing_by
  have heq : v - Int.tdiv v u * u = Int.tmod v u := by
    rw [Int.tmod_def]
    ring
  rw [heq]
  exact tmod_natAbs_lt v u (by assumption)

/-- `fn inv_mod(x: i32, y: i32) -> i32`: extended Euclidean algorithm, with
the result reduced by Rust's `%` (truncated remainder) and then shifted into
`[0, y)` when negative. -/
def inv_mod (x y : Int) : Int :=
  if Int.tmod (invModLoop x y 1 0) y < 0 then y + Int.tmod (invModLoop x y 1 0) y
  else Int.tmod (invModLoop x y 1 0) y

lemma inv_mod_range (x y : Int) (hy : 0 < y) :
    0 ≤ inv_mod x y ∧ inv_mod x y < y := by
  unfold inv_mod
  have h1 : Int.tmod (invModLoop x y 1 0) y < y := Int.tmod_lt_of_pos _ hy
  have h2 : -y < Int.tmod (invModLoop x y 1 0) y := tmod_neg_lower hy
  split <;> omega

lemma invModLoop_spec (x y : Int) :
    ∀ (N : Nat) (u v c a : Int), u.natAbs ≤ N → 0 < u → 0 < v →
      c * x ≡ u [ZMOD y] → a * x ≡ v [ZMOD y] →
      invModLoop u v c a * x ≡ (Int.gcd u v : Int) [ZMOD y] := by
  intro N
  induction N with
  | zero =>
    intro u v c a hN hu hv _ _
    omega
  | succ N ih =>
    intro u v c a hN hu hv hc ha
    rw [invModLoop, if_neg (by omega)]
    have hqu : v - Int.tdiv v u * u = Int.tmod v u := by
      rw [Int.tmod_def]
      ring
    have htm : Int.tmod v u = v % u := Int.tmod_eq_emod (by omega) (by omega)
    have hu'lo : 0 ≤ v % u := Int.emod_nonneg v (by omega)
    have hu'hi : v % u < u := Int.emod_lt_of_pos v hu
    have hc' : (a - Int.tdiv v u * c) * x ≡ v - Int.tdiv v u * u [ZMOD y] := by
      have := Int.ModEq.sub ha (Int.ModEq.mul_left (Int.tdiv v u) hc)
      calc (a - Int.tdiv v u * c) * x
          = a * x - Int.tdiv v u * (c * x) := by ring
        _ ≡ v - Int.tdiv v u * u [ZMOD y] := this
    rcases eq_or_lt_of_le hu'lo with hz | hpos
    · -- new u is 0: the recursive call returns its `a`, which is `c`
      rw [show v - Int.tdiv v u * u = 0 from by rw [hqu, htm]; omega,
        invModLoop, if_pos rfl]
      have hdvd : u ∣ v := Int.dvd_of_emod_eq_zero (by omega)
      rw [Int.gcd_eq_left hdvd, show ((u.natAbs : Int)) = u by omega]
      exact hc
    · have hNrec : (v - Int.tdiv v u * u).natAbs ≤ N := by
        rw [hqu, htm]
        omega
      have hrec := ih (v - Int.tdiv v u * u) u
        (a - Int.tdiv v u * c) c hNrec (by rw [hqu, htm]; omega) hu hc' hc
      have hU : ((u.toNat : Nat) : Int) = u := by omega
      have hV : ((v.toNat : Nat) : Int) = v := by omega
      have hgcd : Int.gcd (v - Int.tdiv v u * u) u = Int.gcd u v := by
        rw [hqu, htm, ← hU, ← hV, ← Int.ofNat_emod, Int.gcd_natCast_natCast,
          Int.gcd_natCast_natCast]
        exact (Nat.gcd_rec u.toNat v.toNat).symm
      rw [← hgcd]
      exact hrec

lemma inv_mod_correct_aux (x y : Int) (hx : 0 < x) (hy : 1 < y)
    (hg : Int.gcd x y = 1) :
    0 ≤ inv_mod x y ∧ inv_mod x y < y ∧ x * inv_mod x y % y = 1 := by
  have hr0 : invModLoop x y 1 0 * x ≡ (Int.gcd x y : Int) [ZMOD y] := by
    refine invModLoop_spec x y x.natAbs x y 1 0 (le_refl _) hx (by omega) ?_ ?_
    · rw [one_mul]
    · rw [zero_mul]
      exact Int.modEq_iff_dvd.mpr ⟨1, by ring⟩
  rw [hg] at hr0
  have hmodeq : inv_mod x y ≡ invModLoop x y 1 0 [ZMOD y] := by
    unfold inv_mod
    have h1 : Int.tmod (invModLoop x y 1 0) y ≡ invModLoop x y 1 0 [ZMOD y] := by
      rw [Int.tmod_def]
      exact Int.modEq_iff_dvd.mpr ⟨Int.tdiv (invModLoop x y 1 0) y, by ring⟩
    split
    · exact Int.ModEq.trans Int.add_modEq_left h1
    · exact h1
  obtain ⟨hlo, hhi⟩ := inv_mod_range x y (by omega)
  refine ⟨hlo, hhi, ?_⟩
  have hfin : x * inv_mod x y ≡ 1 [ZMOD y] := by
    calc x * inv_mod x y ≡ x * invModLoop x y 1 0 [ZMOD y] :=
          Int.ModEq.mul_left x hmodeq
      _ = invModLoop x y 1 0 * x := by ring
      _ ≡ (1 : Int) [ZMOD y] := by exact_mod_cast hr0
  have heq := hfin.eq
  rwa [show (1 : Int) % y = 1 from Int.emod_eq_of_lt (by omega) (by omega)] at heq

/-- C5: for every coprime pair `(x, y)` with `y > 1` and `0 < x < y`,
`inv_mod x y` is normalized to `[0, y)` and satisfies
`(x * inv_mod x y) mod y = 1` — it is the multiplicative inverse of `x`
modulo `y`, computed by the extended Euclidean algorithm. -/
theorem inv_mod_correct (x y : Int) (hx : 0 < x) (hxy : x < y) (hy : 1 < y)
    (hg : Int.gcd x y = 1) :
    0 ≤ inv_mod x y ∧ inv_mod x y < y ∧ x * inv_mod x y % y = 1 :=
  inv_mod_correct_aux x y hx hy hg

theorem inv_mod_correct_witness :
    (0 : Int) < 2 ∧ (2 : Int) < 5 ∧ (1 : Int) < 5 ∧ Int.gcd 2 5 = 1 ∧
      (0 ≤ inv_mod 2 5 ∧ inv_mod 2 5 < 5 ∧ 2 * inv_mod 2 5 % 5 = 1) :=
  ⟨by decide, by decide, by decide, by decide,
    inv_mod_correct 2 5 (by decide) (by decide) (by decide) (by decide)⟩

/-- The `b >> 1` step of `fn pow_mod`: an arithmetic right shift of the
exponent, i.e. floor division by 2. -/
def powShift (b : Int) : Int := b / 2

/-- Loop of `fn pow_mod(a: i32, b: i32, m: i32) -> i32` (square-and-multiply),
totalized with a fuel parameter: one Rust iteration multiplies `r` by `aa`
when the low bit of `b` is set, shifts `b` right, exits when `b` reaches `0`
and otherwise squares `aa`.  When the fuel runs out the current `r` is
returned; for `b < 0` the shift never reaches `0` and the Rust loop never
exits, so no fuel value reaches that state's exit — the wrapper below passes
fuel that is sufficient for every `b ≥ 0`. -/
def powModLoop (m : Int) : Nat → Int → Int → Int → Int
  | 0, r, _, _ => r
  | fuel + 1, r, aa, b =>
    let r2 := if b % 2 ≠ 0 then mul_mod r aa m else r
    let b2 := powShift b
    if b2 = 0 then r2 else powModLoop m fuel r2 (mul_mod aa aa m) b2

/-- `fn pow_mod(a: i32, b: i32, m: i32) -> i32`: binary exponentiation. -/
def pow_mod (a b m : Int) : Int := powModLoop m (b.natAbs + 1) 1 a b

lemma powModLoop_eq (m : Int) (hm : 0 < m) (hm31 : m < 2 ^ 31) :
    ∀ (fuel : Nat) (r aa b : Int), 0 ≤ r → r < m → 0 ≤ aa → aa < m →
      0 ≤ b → b < 2 ^ fuel →
      powModLoop m fuel r aa b = r * aa ^ b.toNat % m := by
  intro fuel
  induction fuel with
  | zero =>
    intro r aa b hr0 hrm ha0 ham hb0 hbf
    have hb : b = 0 := by omega
    subst hb
    simp only [powModLoop, Int.toNat_zero, pow_zero, mul_one]
    exact (Int.emod_eq_of_lt hr0 hrm).symm
  | succ fuel ih =>
    intro r aa b hr0 hrm ha0 ham hb0 hbf
    have hpow : (2 : Int) ^ (fuel + 1) = 2 * 2 ^ fuel := by ring
    have hpos : (0 : Int) < 2 ^ fuel := by positivity
    simp only [powModLoop, powShift]
    have hr2 : 0 ≤ (if b % 2 ≠ 0 then mul_mod r aa m else r) ∧
        (if b % 2 ≠ 0 then mul_mod r aa m else r) < m := by
      split
      · exact mul_mod_bounds hm hm31 hr0 (by omega) ha0 (by omega)
      · exact ⟨hr0, hrm⟩
    have hmr2 : (if b % 2 ≠ 0 then mul_mod r aa m else r) ≡
        r * aa ^ (b % 2).toNat [ZMOD m] := by
      split
      · rename_i hb2
        rw [mul_mod_eq_emod hm hm31 hr0 (by omega) ha0 (by omega),
          show (b % 2).toNat = 1 by omega, pow_one]
        exact Int.mod_modEq (r * aa) m
      · rename_i hb2
        rw [show (b % 2).toNat = 0 by omega, pow_zero, mul_one]
    split
    · rename_i hb2z
      have hbsmall : b = 0 ∨ b = 1 := by omega
      rcases hbsmall with rfl | rfl
      · rw [if_neg (by decide), show ((0 : Int)).toNat = 0 from rfl, pow_zero,
          mul_one]
        exact (Int.emod_eq_of_lt hr0 hrm).symm
      · rw [if_pos (by decide), show ((1 : Int)).toNat = 1 from rfl, pow_one]
        exact mul_mod_eq_emod hm hm31 hr0 (by omega) ha0 (by omega)
    · rename_i hb2z
      have haa2 := mul_mod_bounds hm hm31 ha0 (by omega) ha0 (by omega)
      rw [ih _ (mul_mod aa aa m) (b / 2) hr2.1 hr2.2 haa2.1 haa2.2
        (by omega) (by omega)]
      have haamod : mul_mod aa aa m ≡ aa * aa [ZMOD m] := by
        rw [mul_mod_eq_emod hm hm31 ha0 (by omega) ha0 (by omega)]
        exact Int.mod_modEq (aa * aa) m
      have hX : (if b % 2 ≠ 0 then mul_mod r aa m else r) *
          (mul_mod aa aa m) ^ (b / 2).toNat ≡
          r * aa ^ b.toNat [ZMOD m] := by
        calc (if b % 2 ≠ 0 then mul_mod r aa m else r) *
            (mul_mod aa aa m) ^ (b / 2).toNat
            ≡ (r * aa ^ (b % 2).toNat) * (aa * aa) ^ (b / 2).toNat [ZMOD m] :=
              Int.ModEq.mul hmr2 (Int.ModEq.pow _ haamod)
          _ = r * aa ^ ((b % 2).toNat + 2 * (b / 2).toNat) := by
              rw [← sq, ← pow_mul, pow_add]
              ring
          _ = r * aa ^ b.toNat := by
              rw [show (b % 2).toNat + 2 * (b / 2).toNat = b.toNat by omega]
      exact hX.eq

lemma pow_mod_eq (a b m : Int) (hm : 1 < m) (hm31 : m < 2 ^ 31)
    (ha0 : 0 ≤ a) (ham : a < m) (hb : 0 ≤ b) :
    pow_mod a b m = a ^ b.toNat % m := by
  have h1 : (b.natAbs : Int) < 2 ^ b.natAbs := by
    exact_mod_cast Nat.lt_two_pow b.natAbs
  have h2 : (2 : Int) ^ (b.natAbs + 1) = 2 ^ b.natAbs * 2 := by ring
  have hbound : b < 2 ^ (b.natAbs + 1) := by omega
  rw [pow_mod, powModLoop_eq m (by omega) hm31 (b.natAbs + 1) 1 a b
    (by omega) hm ha0 ham hb hbound, one_mul]

lemma pow_mod_bounds (a b m : Int) (hm : 1 < m) (hm31 : m < 2 ^ 31)
    (ha0 : 0 ≤ a) (ham : a < m) (hb : 0 ≤ b) :
    0 ≤ pow_mod a b m ∧ pow_mod a b m < m := by
  rw [pow_mod_eq a b m hm hm31 ha0 ham hb]
  exact ⟨Int.emod_nonneg _ (by omega), Int.emod_lt_of_pos _ (by omega)⟩

/-- C7: for every `m > 1` representable in 32 bits, every `a` with
`0 ≤ a < m` and every `b ≥ 0`, `pow_mod a b m` equals `a^b mod m` (the value
of `b`-fold repeated modular multiplication); in particular
`pow_mod a 0 m = 1`. -/
theorem pow_mod_correct (a b m : Int) (hm : 1 < m) (hm31 : m < 2 ^ 31)
    (ha0 : 0 ≤ a) (ham : a < m) (hb : 0 ≤ b) :
    pow_mod a b m = a ^ b.toNat % m ∧ pow_mod a 0 m = 1 := by
  refine ⟨pow_mod_eq a b m hm hm31 ha0 ham hb, ?_⟩
  rw [pow_mod_eq a 0 m hm hm31 ha0 ham (by omega),
    show ((0 : Int)).toNat = 0 from rfl, pow_zero]
  exact Int.emod_eq_of_lt (by omega) (by omega)

theorem pow_mod_correct_witness :
    (1 : Int) < 7 ∧ (7 : Int) < 2 ^ 31 ∧ (0 : Int) ≤ 3 ∧ (3 : Int) < 7 ∧
      (0 : Int) ≤ 4 ∧
      (pow_mod 3 4 7 = 3 ^ (4 : Int).toNat % 7 ∧ pow_mod 3 0 7 = 1) :=
  ⟨by decide, by decide, by decide, by decide, by decide,
    pow_mod_correct 3 4 7 (by decide) (by decide) (by decide) (by decide)
      (by decide)⟩

lemma powShift_iter_zero :
    ∀ (k : Nat) (b : Int), 0 ≤ b → b < 2 ^ k → powShift^[k] b = 0 := by
  intro k
  induction k with
  | zero =>
    intro b h0 h1
    simp only [Function.iterate_zero, id_eq]
    omega
  | succ k ih =>
    intro b h0 h1
    rw [Function.iterate_succ_apply]
    have h2 : (2 : Int) ^ (k + 1) = 2 * 2 ^ k := by ring
    refine ih (powShift b) (by unfold powShift; omega) ?_
    unfold powShift
    omega

lemma powShift_iter_neg :
    ∀ (k : Nat) (b : Int), b < 0 → powShift^[k] b < 0 := by
  intro k
  induction k with
  | zero =>
    intro b h0
    simpa using h0
  | succ k ih =>
    intro b h0
    rw [Function.iterate_succ_apply]
    refine ih (powShift b) ?_
    unfold powShift
    omega

/-- C10: the loop of `pow_mod` terminates for non-negative exponents because
the arithmetic right shift `powShift` drives `b` to `0` within at most 31
shifts for a non-negative 32-bit `b`; the hypothesis `b ≥ 0` is essential,
since for negative `b` the iterated arithmetic shift never reaches `0` (it
stays strictly negative forever). -/
theorem pow_mod_shift_termination (b : Int) :
    (0 ≤ b → b < 2 ^ 31 → powShift^[31] b = 0) ∧
    (b < 0 → ∀ k : Nat, powShift^[k] b ≠ 0) := by
  constructor
  · intro h0 h1
    exact powShift_iter_zero 31 b h0 h1
  · intro h0 k
    have := powShift_iter_neg k b h0
    omega

theorem pow_mod_shift_termination_witness :
    ((0 : Int) ≤ 5 ∧ (5 : Int) < 2 ^ 31 ∧ powShift^[31] (5 : Int) = 0) ∧
      ((-3 : Int) < 0 ∧ powShift^[7] (-3 : Int) ≠ 0) :=
  ⟨⟨by decide, by decide,
      (pow_mod_shift_termination 5).1 (by decide) (by decide)⟩,
    ⟨by decide, (pow_mod_shift_termination (-3)).2 (by decide) 7⟩⟩

lemma gcd_sub_left (a b : Int) : Int.gcd (a - b) b = Int.gcd a b := by
  apply Nat.dvd_antisymm
  · have h1 : (↑(Int.gcd (a - b) b) : Int) ∣ a := by
      have := dvd_add (Int.gcd_dvd_left (a := a - b) (b := b))
        (Int.gcd_dvd_right (a := a - b) (b := b))
      simpa using this
    exact Int.natCast_dvd_natCast.mp (Int.dvd_gcd h1 Int.gcd_dvd_right)
  · have h1 : (↑(Int.gcd a b) : Int) ∣ a - b :=
      dvd_sub Int.gcd_dvd_left Int.gcd_dvd_right
    exact Int.natCast_dvd_natCast.mp (Int.dvd_gcd h1 Int.gcd_dvd_right)

lemma gcd_two_of_odd {v : Int} (h : v % 2 = 1) : Int.gcd v 2 = 1 := by
  have h2 : Nat.Coprime 2 v.natAbs :=
    Nat.coprime_two_left.mpr (Nat.odd_iff.mpr (by omega))
  have : Int.gcd v 2 = Nat.gcd v.natAbs 2 := rfl
  rw [this, Nat.gcd_comm]
  exact h2

lemma gcd_mul_two_pow_left {a b : Int} (hb : b % 2 = 1) (h : Nat) :
    Int.gcd (a * 2 ^ h) b = Int.gcd a b := by
  have hco : Nat.Coprime (2 ^ h) b.natAbs :=
    Nat.Coprime.pow_left h (Nat.coprime_two_left.mpr (Nat.odd_iff.mpr (by omega)))
  have e1 : Int.gcd (a * 2 ^ h) b = Nat.gcd (a.natAbs * 2 ^ h) b.natAbs := by
    have : (a * 2 ^ h).natAbs = a.natAbs * 2 ^ h := by
      rw [Int.natAbs_mul, Int.natAbs_pow]
      rfl
    rw [show Int.gcd (a * 2 ^ h) b = Nat.gcd (a * 2 ^ h).natAbs b.natAbs from rfl,
      this]
  rw [e1, Nat.Coprime.gcd_mul_right_cancel a.natAbs hco]
  rfl

/-- Inner (right-shift) loop of `fn inv_mod2(u: i32, v: i32) -> i32`: halves
`t1`/`t3` until `t3` becomes odd.  With `skip` set (first entry when `u` is
odd) the parity of `t3` is checked before any halving.  Shifts are arithmetic
(`>> 1` = floor division by 2).  The branch returning at `t3 / 2 = 0` is a
totalization guard for a state in which the Rust loop would spin forever;
it is unreachable whenever the loop is entered with an even non-zero `t3`. -/
def innerLoop (v : Int) : Int → Int → Bool → Int × Int
  | t1, t3, true =>
    if t3 % 2 ≠ 0 then (t1, t3) else innerLoop v t1 t3 false
  | t1, t3, false =>
    let t1a := if t1 % 2 = 0 then t1 / 2 else (t1 + v) / 2
    let t3a := t3 / 2
    if t3a % 2 ≠ 0 then (t1a, t3a)
    else if t3a = 0 then (t1a, t3a)
    else innerLoop v t1a t3a false
termination_by t1 t3 skip => t3.natAbs * 2 + (if skip then 1 else 0)
decreasing_by
  · simp only [if_true, if_false]
    omega
  · simp only [if_true, if_false]
    omega

/-- Outer loop of `fn inv_mod2`, totalized by fuel; when the fuel runs out the
current `u1` is returned (the wrapper passes fuel sufficient for every state
reachable from a valid call, as proved below). -/
def outerLoop (v : Int) : Nat → Int → Int → Int → Int → Int → Int → Bool → Int
  | 0, u1, _, _, _, _, _, _ => u1
  | fuel + 1, u1, u3, v1, v3, t1, t3, skip =>
    let p := innerLoop v t1 t3 skip
    let u1a := if 0 ≤ p.2 then p.1 else u1
    let u3a := if 0 ≤ p.2 then p.2 else u3
    let v1a := if 0 ≤ p.2 then v1 else v - p.1
    let v3a := if 0 ≤ p.2 then v3 else -p.2
    let t1b := if u1a - v1a < 0 then u1a - v1a + v else u1a - v1a
    let t3b := u3a - v3a
    if t3b = 0 then u1a else outerLoop v fuel u1a u3a v1a v3a t1b t3b false

/-- `fn inv_mod2(u: i32, v: i32) -> i32`: binary extended Euclid, valid for
odd `v`.  Initial state `u1 = 1`, `u3 = u`, `v1 = v`, `v3 = v`; the starting
`(t1, t3)` pair and the skip flag depend on the parity of `u`. -/
def inv_mod2 (u v : Int) : Int :=
  if u % 2 ≠ 0 then outerLoop v (u.natAbs + v.natAbs + 2) 1 u v v 0 (-v) true
  else outerLoop v (u.natAbs + v.natAbs + 2) 1 u v v 1 u false

lemma innerLoop_false_eq (v t1 t3 : Int) :
    innerLoop v t1 t3 false =
      if (t3 / 2) % 2 ≠ 0 then
        (if t1 % 2 = 0 then t1 / 2 else (t1 + v) / 2, t3 / 2)
      else if t3 / 2 = 0 then
        (if t1 % 2 = 0 then t1 / 2 else (t1 + v) / 2, t3 / 2)
      else innerLoop v (if t1 % 2 = 0 then t1 / 2 else (t1 + v) / 2) (t3 / 2)
        false := by
  rw [innerLoop]

lemma innerLoop_true_eq (v t1 t3 : Int) :
    innerLoop v t1 t3 true =
      if t3 % 2 ≠ 0 then (t1, t3) else innerLoop v t1 t3 false := by
  rw [innerLoop]

lemma innerLoop_fst_range (v : Int) :
    ∀ (t1 t3 : Int) (skip : Bool), 0 ≤ t1 → t1 < v →
      0 ≤ (innerLoop v t1 t3 skip).1 ∧ (innerLoop v t1 t3 skip).1 < v := by
  intro t1 t3 skip
  induction t1, t3, skip using innerLoop.induct v with
  | case1 t1 t3 h =>
    intro h0 h1
    rw [innerLoop_true_eq, if_pos h]
    exact ⟨h0, h1⟩
  | case2 t1 t3 h ih =>
    intro h0 h1
    rw [innerLoop_true_eq, if_neg h]
    exact ih h0 h1
  | case3 t1 t3 t3a h =>
    intro h0 h1
    have h' : (t3 / 2) % 2 ≠ 0 := h
    rw [innerLoop_false_eq, if_pos h']
    constructor <;> split <;> omega
  | case4 t1 t3 t3a h hz =>
    intro h0 h1
    have h' : ¬ (t3 / 2) % 2 ≠ 0 := h
    have hz' : t3 / 2 = 0 := hz
    rw [innerLoop_false_eq, if_neg h', if_pos hz']
    constructor <;> split <;> omega
  | case5 t1 t3 t1a t3a h hz ih =>
    intro h0 h1
    have h' : ¬ (t3 / 2) % 2 ≠ 0 := h
    have hz' : ¬ t3 / 2 = 0 := hz
    rw [innerLoop_false_eq, if_neg h', if_neg hz']
    refine ih ?_ ?_ <;> unfold t1a <;> split <;> omega

lemma halve_cong {u v t1 t3 t1a : Int} (hv : 0 < v) (hvodd : v % 2 = 1)
    (ht3 : t3 % 2 = 0) (hc : t1 * u ≡ t3 [ZMOD v])
    (ht1 : 2 * t1a = t1 ∨ 2 * t1a = t1 + v) :
    t1a * u ≡ t3 / 2 [ZMOD v] := by
  have key : 2 * (t1a * u) ≡ 2 * (t3 / 2) [ZMOD v] := by
    rw [show (2 : Int) * (t3 / 2) = t3 by omega]
    rcases ht1 with h | h
    · rw [show (2 : Int) * (t1a * u) = 2 * t1a * u by ring, h]
      exact hc
    · rw [show (2 : Int) * (t1a * u) = 2 * t1a * u by ring, h]
      calc (t1 + v) * u = t1 * u + v * u := by ring
        _ ≡ t1 * u + 0 [ZMOD v] :=
            Int.ModEq.add_left _ (Int.modEq_zero_iff_dvd.mpr (dvd_mul_right v u))
        _ = t1 * u := by ring
        _ ≡ t3 [ZMOD v] := hc
  have hcancel := Int.ModEq.cancel_left_div_gcd (c := 2) hv key
  rwa [gcd_two_of_odd hvodd, Nat.cast_one, Int.ediv_one] at hcancel

lemma innerLoop_spec (u v : Int) (hv : 0 < v) (hvodd : v % 2 = 1) :
    ∀ (t1 t3 : Int) (skip : Bool), t3 ≠ 0 →
      (skip = true → t3 % 2 ≠ 0) → (skip = false → t3 % 2 = 0) →
      t1 * u ≡ t3 [ZMOD v] →
      ∃ h : Nat, (innerLoop v t1 t3 skip).2 * 2 ^ h = t3 ∧
        (skip = false → 1 ≤ h) ∧
        (innerLoop v t1 t3 skip).2 % 2 ≠ 0 ∧
        (innerLoop v t1 t3 skip).1 * u ≡ (innerLoop v t1 t3 skip).2 [ZMOD v] := by
  intro t1 t3 skip
  induction t1, t3, skip using innerLoop.induct v with
  | case1 t1 t3 h =>
    intro hne _ _ hc
    rw [innerLoop_true_eq, if_pos h]
    refine ⟨0, by ring, ?_, h, hc⟩
    intro hf
    exact absurd hf (by simp)
  | case2 t1 t3 h ih =>
    intro hne hodd _ hc
    exact absurd (hodd rfl) h
  | case3 t1 t3 t3a h =>
    intro hne _ heven hc
    have h' : (t3 / 2) % 2 ≠ 0 := h
    rw [innerLoop_false_eq, if_pos h']
    have he : t3 % 2 = 0 := heven rfl
    refine ⟨1, by omega, fun _ => le_refl 1, h', ?_⟩
    refine halve_cong hv hvodd he hc ?_
    split <;> rename_i hp
    · left
      omega
    · right
      omega
  | case4 t1 t3 t3a h hz =>
    intro hne _ heven hc
    have hz' : t3 / 2 = 0 := hz
    have he : t3 % 2 = 0 := heven rfl
    omega
  | case5 t1 t3 t1a t3a h hz ih =>
    intro hne _ heven hc
    have h' : ¬ (t3 / 2) % 2 ≠ 0 := h
    have hz' : ¬ t3 / 2 = 0 := hz
    have he : t3 % 2 = 0 := heven rfl
    have e1 : t1a = if t1 % 2 = 0 then t1 / 2 else (t1 + v) / 2 := by
      unfold t1a
      split
      · rfl
      · rfl
    rw [innerLoop_false_eq, if_neg h', if_neg hz', ← e1,
      show t3 / 2 = t3a from rfl]
    have hc' : t1a * u ≡ t3a [ZMOD v] := by
      rw [e1, show t3a = t3 / 2 from rfl]
      refine halve_cong hv hvodd he hc ?_
      split <;> rename_i hp
      · left
        omega
      · right
        omega
    have hza : t3a ≠ 0 := hz'
    have hevena : (false : Bool) = false → t3a % 2 = 0 := fun _ =>
      show t3 / 2 % 2 = 0 by omega
    obtain ⟨k, hk1, _, hk3, hk4⟩ :=
      ih hza (fun hf => absurd hf (by simp)) hevena hc'
    refine ⟨k + 1, ?_, fun _ => by omega, hk3, hk4⟩
    rw [pow_succ, ← mul_assoc]
    have hbridge : t3a * 2 = t3 := show t3 / 2 * 2 = t3 by omega
    omega

lemma outerLoop_zero_eq (v u1 u3 v1 v3 t1 t3 : Int) (skip : Bool) :
    outerLoop v 0 u1 u3 v1 v3 t1 t3 skip = u1 := by
  rw [outerLoop]

lemma outerLoop_succ_pos (v : Int) (fuel : Nat) (u1 u3 v1 v3 t1 t3 : Int)
    (skip : Bool) (hp : 0 ≤ (innerLoop v t1 t3 skip).2) :
    outerLoop v (fuel + 1) u1 u3 v1 v3 t1 t3 skip =
      if (innerLoop v t1 t3 skip).2 - v3 = 0 then (innerLoop v t1 t3 skip).1
      else outerLoop v fuel (innerLoop v t1 t3 skip).1
        (innerLoop v t1 t3 skip).2 v1 v3
        (if (innerLoop v t1 t3 skip).1 - v1 < 0 then
          (innerLoop v t1 t3 skip).1 - v1 + v
         else (innerLoop v t1 t3 skip).1 - v1)
        ((innerLoop v t1 t3 skip).2 - v3) false := by
  rw [outerLoop]
  simp only [if_pos hp]

lemma outerLoop_succ_neg (v : Int) (fuel : Nat) (u1 u3 v1 v3 t1 t3 : Int)
    (skip : Bool) (hp : ¬ 0 ≤ (innerLoop v t1 t3 skip).2) :
    outerLoop v (fuel + 1) u1 u3 v1 v3 t1 t3 skip =
      if u3 - -(innerLoop v t1 t3 skip).2 = 0 then u1
      else outerLoop v fuel u1 u3 (v - (innerLoop v t1 t3 skip).1)
        (-(innerLoop v t1 t3 skip).2)
        (if u1 - (v - (innerLoop v t1 t3 skip).1) < 0 then
          u1 - (v - (innerLoop v t1 t3 skip).1) + v
         else u1 - (v - (innerLoop v t1 t3 skip).1))
        (u3 - -(innerLoop v t1 t3 skip).2) false := by
  rw [outerLoop]
  simp only [if_neg hp]

lemma outerLoop_range (v : Int) (hv : 2 ≤ v) :
    ∀ (fuel : Nat) (u1 u3 v1 v3 t1 t3 : Int) (skip : Bool),
      0 ≤ u1 → u1 < v → 0 ≤ v1 → v1 ≤ v → 0 ≤ t1 → t1 < v →
      0 ≤ outerLoop v fuel u1 u3 v1 v3 t1 t3 skip ∧
        outerLoop v fuel u1 u3 v1 v3 t1 t3 skip < v := by
  intro fuel
  induction fuel with
  | zero =>
    intro u1 u3 v1 v3 t1 t3 skip h1 h2 _ _ _ _
    rw [outerLoop_zero_eq]
    exact ⟨h1, h2⟩
  | succ fuel ih =>
    intro u1 u3 v1 v3 t1 t3 skip h1 h2 h3 h4 h5 h6
    obtain ⟨hp0, hp1⟩ := innerLoop_fst_range v t1 t3 skip h5 h6
    rcases le_or_lt 0 (innerLoop v t1 t3 skip).2 with hp | hp
    · rw [outerLoop_succ_pos v fuel u1 u3 v1 v3 t1 t3 skip hp]
      split
      · exact ⟨hp0, hp1⟩
      · refine ih _ _ _ _ _ _ _ hp0 hp1 h3 h4 ?_ ?_
        · split <;> omega
        · split <;> omega
    · rw [outerLoop_succ_neg v fuel u1 u3 v1 v3 t1 t3 skip (by omega)]
      split
      · exact ⟨h1, h2⟩
      · refine ih _ _ _ _ _ _ _ h1 h2 (by omega) (by omega) ?_ ?_
        · split <;> omega
        · split <;> omega

lemma inv_mod2_range (u v : Int) (hv : 2 ≤ v) :
    0 ≤ inv_mod2 u v ∧ inv_mod2 u v < v := by
  unfold inv_mod2
  split
  · exact outerLoop_range v hv _ 1 u v v 0 (-v) true (by omega) (by omega)
      (by omega) (by omega) (by omega) (by omega)
  · exact outerLoop_range v hv _ 1 u v v 1 u false (by omega) (by omega)
      (by omega) (by omega) (by omega) (by omega)

lemma step_t1_cong {u v a b A B : Int} (ha : a * u ≡ A [ZMOD v])
    (hb : b * u ≡ B [ZMOD v]) :
    (if a - b < 0 then a - b + v else a - b) * u ≡ A - B [ZMOD v] := by
  have hvu : v * u ≡ 0 [ZMOD v] := Int.modEq_zero_iff_dvd.mpr (dvd_mul_right v u)
  split
  · calc (a - b + v) * u = a * u - b * u + v * u := by ring
      _ ≡ A - B + 0 [ZMOD v] := Int.ModEq.add (Int.ModEq.sub ha hb) hvu
      _ = A - B := by ring
  · calc (a - b) * u = a * u - b * u := by ring
      _ ≡ A - B [ZMOD v] := Int.ModEq.sub ha hb

lemma step_v1_cong {u v P1 P2 : Int} (hk4 : P1 * u ≡ P2 [ZMOD v]) :
    (v - P1) * u ≡ -P2 [ZMOD v] := by
  have hvu : v * u ≡ 0 [ZMOD v] := Int.modEq_zero_iff_dvd.mpr (dvd_mul_right v u)
  calc (v - P1) * u = v * u - P1 * u := by ring
    _ ≡ 0 - P2 [ZMOD v] := Int.ModEq.sub hvu hk4
    _ = -P2 := by ring

lemma end_of_loop_cong {u v u1 u3 v3 : Int} (hu1c : u1 * u ≡ u3 [ZMOD v])
    (hgcd : Int.gcd u3 v3 = 1) (heq : u3 = v3) (hpos : 1 ≤ u3) :
    u1 * u ≡ 1 [ZMOD v] := by
  rw [heq, Int.gcd_self] at hgcd
  have h1 : u3 = 1 := by omega
  rwa [h1] at hu1c

lemma two_le_two_pow {k : Nat} (h : 1 ≤ k) : (2 : Int) ≤ 2 ^ k := by
  calc (2 : Int) = 2 ^ 1 := (pow_one 2).symm
    _ ≤ 2 ^ k := pow_le_pow_right₀ (by omega) h

lemma outerLoop_spec (u v : Int) (hv : 1 < v) (hvodd : v % 2 = 1) :
    ∀ (fuel : Nat) (u1 u3 v1 v3 t1 t3 : Int) (skip : Bool),
      u1 * u ≡ u3 [ZMOD v] → v1 * u ≡ v3 [ZMOD v] → t1 * u ≡ t3 [ZMOD v] →
      0 ≤ u1 → u1 < v → 0 ≤ v1 → v1 ≤ v → 0 ≤ t1 → t1 < v →
      1 ≤ u3 → 1 ≤ v3 → v3 % 2 = 1 → Int.gcd u3 v3 = 1 → t3 ≠ 0 →
      ((skip = true ∧ t3 = -v3 ∧ u3 % 2 = 1) ∨
       (skip = false ∧ t3 = u3 ∧ t3 % 2 = 0) ∨
       (skip = false ∧ t3 = u3 - v3 ∧ u3 % 2 = 1)) →
      (skip = true → (u3 + v3).toNat + 1 < fuel) →
      (skip = false → (u3 + v3).toNat < fuel) →
      outerLoop v fuel u1 u3 v1 v3 t1 t3 skip * u ≡ 1 [ZMOD v] := by
  intro fuel
  induction fuel with
  | zero =>
    intro u1 u3 v1 v3 t1 t3 skip _ _ _ _ _ _ _ _ _ _ _ _ _ _ _ hfT hfF
    rcases Bool.eq_false_or_eq_true skip with h | h
    · exact absurd (hfT h) (by omega)
    · exact absurd (hfF h) (by omega)

  | succ fuel ih =>
    intro u1 u3 v1 v3 t1 t3 skip hu1c hv1c ht1c ha1 ha2 hb1 hb2 hcc1 hcc2
      hu3 hv3 hv3odd hgcd ht3ne hcase hfT hfF
    rcases hcase with ⟨hs, hteq, hu3odd⟩ | ⟨hs, hteq, hteven⟩ | ⟨hs, hteq, hu3odd⟩
    · -- case A: first iteration with odd u; skip is set and t3 = -v3
      subst hs
      subst hteq
      have hfuel : (u3 + v3).toNat + 1 < fuel + 1 := hfT rfl
      obtain ⟨hp0, hp1⟩ := innerLoop_fst_range v t1 (-v3) true hcc1 hcc2
      obtain ⟨k, hk1, _, hk3, hk4⟩ :=
        innerLoop_spec u v (by omega) hvodd t1 (-v3) true (by omega)
          (fun _ => by omega) (fun hf => absurd hf (by simp)) ht1c
      have hk0 : k = 0 := by
        by_contra hne0
        obtain ⟨j, rfl⟩ : ∃ j, k = j + 1 := ⟨k - 1, by omega⟩
        rw [pow_succ, ← mul_assoc] at hk1
        omega
      subst hk0
      rw [pow_zero, mul_one] at hk1
      have hpneg : ¬ 0 ≤ (innerLoop v t1 (-v3) true).2 := by omega
      rw [outerLoop_succ_neg v fuel u1 u3 v1 v3 t1 (-v3) true hpneg, hk1]
      simp only [neg_neg]
      split
      · rename_i hz
        exact end_of_loop_cong hu1c hgcd (by omega) hu3
      · rename_i hz
        have hk4' : (innerLoop v t1 (-v3) true).1 * u ≡ -v3 [ZMOD v] := by
          rwa [hk1] at hk4
        have hvc' : (v - (innerLoop v t1 (-v3) true).1) * u ≡ v3 [ZMOD v] := by
          have := step_v1_cong hk4'
          simpa using this
        exact ih u1 u3 (v - (innerLoop v t1 (-v3) true).1) v3 _ _ false hu1c
          hvc' (step_t1_cong hu1c hvc') ha1 ha2 (by omega) (by omega)
          (by split <;> omega) (by split <;> omega) hu3 hv3 hv3odd hgcd hz
          (Or.inr (Or.inr ⟨rfl, rfl, hu3odd⟩))
          (fun hf => absurd hf (by simp)) (fun _ => by omega)
    · -- case B: first iteration with even u; t3 = t3 = u
      subst hs
      subst hteq
      have hfuel : (t3 + v3).toNat < fuel + 1 := hfF rfl
      obtain ⟨hp0, hp1⟩ := innerLoop_fst_range v t1 t3 false hcc1 hcc2
      obtain ⟨k, hk1, hk2, hk3, hk4⟩ :=
        innerLoop_spec u v (by omega) hvodd t1 t3 false (by omega)
          (fun hf => absurd hf (by simp)) (fun _ => hteven) ht1c
      have h2k : (2 : Int) ≤ 2 ^ k := two_le_two_pow (hk2 rfl)
      have hppos : 0 < (innerLoop v t1 t3 false).2 := by
        rcases lt_trichotomy ((innerLoop v t1 t3 false).2) 0 with h | h | h
        · nlinarith
        · omega
        · exact h
      have hmag : 2 * (innerLoop v t1 t3 false).2 ≤ t3 := by
        have h1 : 2 * (innerLoop v t1 t3 false).2 ≤
            2 ^ k * (innerLoop v t1 t3 false).2 :=
          mul_le_mul_of_nonneg_right h2k (le_of_lt hppos)
        have h2 : 2 ^ k * (innerLoop v t1 t3 false).2 = t3 := by
          rw [mul_comm]
          exact hk1
        omega
      have hgcd' : Int.gcd (innerLoop v t1 t3 false).2 v3 = 1 := by
        have h1 : Int.gcd ((innerLoop v t1 t3 false).2 * 2 ^ k) v3 =
            Int.gcd (innerLoop v t1 t3 false).2 v3 :=
          gcd_mul_two_pow_left hv3odd k
        rw [hk1] at h1
        rw [← h1]
        exact hgcd
      rw [outerLoop_succ_pos v fuel u1 t3 v1 v3 t1 t3 false (by omega)]
      split
      · rename_i hz
        exact end_of_loop_cong hk4 hgcd' (by omega) (by omega)
      · rename_i hz
        exact ih (innerLoop v t1 t3 false).1 (innerLoop v t1 t3 false).2 v1 v3
          _ _ false hk4 hv1c (step_t1_cong hk4 hv1c) hp0 hp1 hb1 hb2
          (by split <;> omega) (by split <;> omega) (by omega) hv3 hv3odd hgcd'
          hz (Or.inr (Or.inr ⟨rfl, rfl, by omega⟩))
          (fun hf => absurd hf (by simp)) (fun _ => by omega)
    · -- case C: steady state; t3 = u3 - v3 with u3, v3 odd
      subst hs
      subst hteq
      have hfuel : (u3 + v3).toNat < fuel + 1 := hfF rfl
      obtain ⟨hp0, hp1⟩ := innerLoop_fst_range v t1 (u3 - v3) false hcc1 hcc2
      obtain ⟨k, hk1, hk2, hk3, hk4⟩ :=
        innerLoop_spec u v (by omega) hvodd t1 (u3 - v3) false ht3ne
          (fun hf => absurd hf (by simp)) (fun _ => by omega) ht1c
      have h2k : (2 : Int) ≤ 2 ^ k := two_le_two_pow (hk2 rfl)
      rcases lt_or_le ((innerLoop v t1 (u3 - v3) false).2) 0 with hneg | hpos
      · -- t3 < 0: the v-side is replaced
        have hmag : 2 * (-(innerLoop v t1 (u3 - v3) false).2) ≤ v3 - u3 := by
          have h1 : 2 * (-(innerLoop v t1 (u3 - v3) false).2) ≤
              2 ^ k * (-(innerLoop v t1 (u3 - v3) false).2) :=
            mul_le_mul_of_nonneg_right h2k (by omega)
          have h2 : 2 ^ k * (innerLoop v t1 (u3 - v3) false).2 = u3 - v3 := by
            rw [mul_comm]
            exact hk1
          have h3 : 2 ^ k * (-(innerLoop v t1 (u3 - v3) false).2) =
              -(2 ^ k * (innerLoop v t1 (u3 - v3) false).2) := by ring
          omega
        have hgcd' : Int.gcd u3 (-(innerLoop v t1 (u3 - v3) false).2) = 1 := by
          rw [Int.gcd_neg, Int.gcd_comm]
          have h1 : Int.gcd ((innerLoop v t1 (u3 - v3) false).2 * 2 ^ k) u3 =
              Int.gcd (innerLoop v t1 (u3 - v3) false).2 u3 :=
            gcd_mul_two_pow_left hu3odd k
          rw [← h1, hk1]
          have h3 : u3 - v3 = -(v3 - u3) := by ring
          rw [h3, Int.neg_gcd, gcd_sub_left, Int.gcd_comm]
          exact hgcd
        rw [outerLoop_succ_neg v fuel u1 u3 v1 v3 t1 (u3 - v3) false (by omega)]
        split
        · rename_i hz
          exact end_of_loop_cong hu1c hgcd' (by omega) hu3
        · rename_i hz
          exact ih u1 u3 (v - (innerLoop v t1 (u3 - v3) false).1)
            (-(innerLoop v t1 (u3 - v3) false).2) _ _ false hu1c
            (step_v1_cong hk4) (step_t1_cong hu1c (step_v1_cong hk4)) ha1 ha2
            (by omega) (by omega) (by split <;> omega) (by split <;> omega)
            hu3 (by omega) (by omega) hgcd' hz
            (Or.inr (Or.inr ⟨rfl, rfl, hu3odd⟩))
            (fun hf => absurd hf (by simp)) (fun _ => by omega)
      · -- t3 > 0: the u-side is replaced
        have hppos : 0 < (innerLoop v t1 (u3 - v3) false).2 := by omega
        have hmag : 2 * (innerLoop v t1 (u3 - v3) false).2 ≤ u3 - v3 := by
          have h1 : 2 * (innerLoop v t1 (u3 - v3) false).2 ≤
              2 ^ k * (innerLoop v t1 (u3 - v3) false).2 :=
            mul_le_mul_of_nonneg_right h2k (by omega)
          have h2 : 2 ^ k * (innerLoop v t1 (u3 - v3) false).2 = u3 - v3 := by
            rw [mul_comm]
            exact hk1
          omega
        have hgcd' : Int.gcd (innerLoop v t1 (u3 - v3) false).2 v3 = 1 := by
          have h1 : Int.gcd ((innerLoop v t1 (u3 - v3) false).2 * 2 ^ k) v3 =
              Int.gcd (innerLoop v t1 (u3 - v3) false).2 v3 :=
            gcd_mul_two_pow_left hv3odd k
          rw [← h1, hk1, gcd_sub_left]
          exact hgcd
        rw [outerLoop_succ_pos v fuel u1 u3 v1 v3 t1 (u3 - v3) false (by omega)]
        split
        · rename_i hz
          exact end_of_loop_cong hk4 hgcd' (by omega) (by omega)
        · rename_i hz
          exact ih (innerLoop v t1 (u3 - v3) false).1
            (innerLoop v t1 (u3 - v3) false).2 v1 v3 _ _ false hk4 hv1c
            (step_t1_cong hk4 hv1c) hp0 hp1 hb1 hb2 (by split <;> omega)
            (by split <;> omega) (by omega) hv3 hv3odd hgcd' hz
            (Or.inr (Or.inr ⟨rfl, rfl, by omega⟩))
            (fun hf => absurd hf (by simp)) (fun _ => by omega)

lemma inv_mod2_correct_aux (u v : Int) (hu : 0 < u) (hv : 1 < v)
    (hvodd : v % 2 = 1) (hg : Int.gcd u v = 1) :
    inv_mod2 u v * u ≡ 1 [ZMOD v] := by
  have hvv : v * u ≡ v [ZMOD v] := by
    refine Int.modEq_iff_dvd.mpr ⟨1 - u, by ring⟩
  unfold inv_mod2
  split <;> rename_i hpar
  · -- odd u: skip path, t1 = 0, t3 = -v
    refine outerLoop_spec u v hv hvodd (u.natAbs + v.natAbs + 2) 1 u v v 0 (-v)
      true (by rw [one_mul]) hvv ?_ (by omega) (by omega) (by omega)
      (by omega) (by omega) (by omega) (by omega) (by omega) hvodd hg
      (by omega) (Or.inl ⟨rfl, rfl, by omega⟩) (fun _ => by omega)
      (fun hf => absurd hf (by simp))
    rw [zero_mul]
    exact Int.modEq_iff_dvd.mpr ⟨-1, by ring⟩
  · -- even u: t1 = 1, t3 = u
    refine outerLoop_spec u v hv hvodd (u.natAbs + v.natAbs + 2) 1 u v v 1 u
      false (by rw [one_mul]) hvv (by rw [one_mul]) (by omega) (by omega)
      (by omega) (by omega) (by omega) (by omega) (by omega) (by omega) hvodd
      hg (by omega) (Or.inr (Or.inl ⟨rfl, rfl, by omega⟩))
      (fun hf => absurd hf (by simp)) (fun _ => by omega)

/-- C6: for every coprime pair `(x, y)` with `y` odd, `y > 1` and `0 < x < y`,
the binary variant agrees with the extended-Euclid variant —
`inv_mod2 x y = inv_mod x y` — and the common result `r` satisfies
`(x * r) mod y = 1`. -/
theorem inv_mod2_eq_inv_mod (x y : Int) (hyodd : y % 2 = 1) (hy : 1 < y)
    (hx : 0 < x) (hxy : x < y) (hg : Int.gcd x y = 1) :
    inv_mod2 x y = inv_mod x y ∧ x * inv_mod2 x y % y = 1 := by
  obtain ⟨hr20, hr21⟩ := inv_mod2_range x y (by omega)
  have hc2 : inv_mod2 x y * x ≡ 1 [ZMOD y] :=
    inv_mod2_correct_aux x y hx hy hyodd hg
  obtain ⟨hr10, hr11, hr1c⟩ := inv_mod_correct_aux x y hx hy hg
  have hc1 : x * inv_mod x y ≡ 1 [ZMOD y] := by
    show x * inv_mod x y % y = 1 % y
    rw [hr1c, Int.emod_eq_of_lt (by omega) (by omega)]
  have key : inv_mod2 x y ≡ inv_mod x y [ZMOD y] := by
    calc inv_mod2 x y = inv_mod2 x y * 1 := by ring
      _ ≡ inv_mod2 x y * (x * inv_mod x y) [ZMOD y] :=
          Int.ModEq.mul_left _ hc1.symm
      _ = (inv_mod2 x y * x) * inv_mod x y := by ring
      _ ≡ 1 * inv_mod x y [ZMOD y] := Int.ModEq.mul_right _ hc2
      _ = inv_mod x y := by ring
  have heq : inv_mod2 x y % y = inv_mod x y % y := key
  rw [Int.emod_eq_of_lt hr20 hr21, Int.emod_eq_of_lt hr10 hr11] at heq
  refine ⟨heq, ?_⟩
  have hfin : x * inv_mod2 x y ≡ 1 [ZMOD y] := by
    calc x * inv_mod2 x y = inv_mod2 x y * x := by ring
      _ ≡ 1 [ZMOD y] := hc2
  have hfin2 := hfin.eq
  rwa [show (1 : Int) % y = 1 from Int.emod_eq_of_lt (by omega) (by omega)]
    at hfin2

theorem inv_mod2_eq_inv_mod_witness :
    (5 : Int) % 2 = 1 ∧ (1 : Int) < 5 ∧ (0 : Int) < 2 ∧ (2 : Int) < 5 ∧
      Int.gcd 2 5 = 1 ∧
      (inv_mod2 2 5 = inv_mod 2 5 ∧ 2 * inv_mod2 2 5 % 5 = 1) :=
  ⟨by decide, by decide, by decide, by decide, by decide,
    inv_mod2_eq_inv_mod 2 5 (by decide) (by decide) (by decide) (by decide)
      (by decide)⟩

/-- Counter-normalization loop of the `divn!` macro
(`loop { kq -= a; if kq < a { break } }`), entered when `kq ≥ a`.  The branch
for `a ≤ 0` is a totalization guard (the Rust loop would never stop there);
`calc_digits` only uses prime bases `a ≥ 2`. -/
def kqRed (a kq : Int) : Int :=
  if a ≤ 0 then kq - a
  else if kq - a < a then kq - a
  else kqRed a (kq - a)
termination_by kq.toNat
decreasing_by omega

/-- Division loop of the `divn!` macro
(`loop { t = t / a; v += vinc; if (t % a) != 0 { break } }`): a do-while that
strips factors of `a` out of `t`.  The middle branch is a totalization guard
for states where the Rust loop would never exit (`t` reaching `0`, or
`a ≤ 1`); it is unreachable when the loop is entered with `a ∣ t`, `t > 0`
and a prime base `a ≥ 2`. -/
def divLoop (a vinc t v : Int) : Int × Int :=
  if Int.tmod (Int.tdiv t a) a ≠ 0 then (Int.tdiv t a, v + vinc)
  else if Int.tdiv t a ≤ 0 ∨ a ≤ 1 then (Int.tdiv t a, v + vinc)
  else divLoop a vinc (Int.tdiv t a) (v + vinc)
termination_by t.natAbs
decreasing_by
  rename_i h2
  push_neg at h2
  obtain ⟨hq, ha⟩ := h2
  have ht : 0 < t := by
    by_contra hcon
    push_neg at hcon
    have h3 : Int.tdiv (-t) a = -Int.tdiv t a := by rw [Int.neg_tdiv]
    have h4 : 0 ≤ Int.tdiv (-t) a := Int.tdiv_nonneg (by omega) (by omega)
    omega
  have key := Int.tdiv_add_tmod t a
  have hr : 0 ≤ Int.tmod t a := Int.tmod_nonneg a (le_of_lt ht)
  have h2q : 2 * Int.tdiv t a ≤ a * Int.tdiv t a := by nlinarith
  omega

/-- The `divn!` macro body: advance the divisibility counter `kq` by `kqinc`;
when it reaches the prime base it is reduced below `a`, and when the reduced
counter hits `0` the current term factor `t` is divisible by `a` and all its
factors of `a` are stripped, adjusting the exponent tally `v` by `vinc` per
factor.  Returns the new `(t, v, kq)`. -/
def divn (a vinc kqinc t v kq : Int) : Int × Int × Int :=
  if a ≤ kq + kqinc then
    if kqRed a (kq + kqinc) = 0 then
      ((divLoop a vinc t v).1, (divLoop a vinc t v).2, 0)
    else (t, v, kqRed a (kq + kqinc))
  else (t, v, kq + kqinc)

/-- The `for _ in v..vmax { t = mul_mod(t, a, av) }` scaling loop of
`calc_digits`, iterated `(vmax - v).toNat` times. -/
def scaleLoop (a av : Int) : Int → Nat → Int
  | t, 0 => t
  | t, c + 1 => scaleLoop a av (mul_mod t a av) c

/-- Local state of the per-term (`for k in 1..nl+1`) loop of `calc_digits`:
running numerator and denominator, channel partial sum, exponent tally, and
the four divisibility counters. -/
structure TermState where
  num : Int
  den : Int
  s : Int
  v : Int
  kq1 : Int
  kq2 : Int
  kq3 : Int
  kq4 : Int

/-- Channel initialization of `calc_digits` for prime base `a`, channel
modulus `av` and digit offset `n` (lines 208–221 of the source):
`s = 0`, `den = 1`, `kq1..kq4 = 0, -1, -3, -2`, and for base 2 the seed is
`num = 1`, `v = -n`, otherwise `num = pow_mod(2, n, av)`, `v = 0`. -/
def termInit (a av n : Int) : TermState :=
  if a = 2 then ⟨1, 1, 0, -n, 0, -1, -3, -2⟩
  else ⟨pow_mod 2 n av, 1, 0, 0, 0, -1, -3, -2⟩

/-- One iteration of the per-term loop of `calc_digits` (lines 223–262 of the
source) at term index `k`: the four factors `2k`, `2k-1`, `3(3k-1)`, `3k-2`
are stripped of powers of `a` via `divn` and folded into `num`/`den`; when
the exponent tally is strictly positive the term's contribution is computed
(modular inverse of `den`, times `num`, times `a^(vmax-v)`, times the weight
`25k-3`) and added into the partial sum `s` with a single conditional
subtraction of `av`.  The second component is the addend folded into `s`
(when the tally was positive). -/
def termStep (a av vmax k : Int) (st : TermState) : TermState × Option Int :=
  let d1 := divn a (-1) 2 (2 * k) st.v st.kq1
  let num1 := mul_mod st.num d1.1 av
  let d2 := divn a (-1) 2 (2 * k - 1) d1.2.1 st.kq2
  let num2 := mul_mod num1 d2.1 av
  let d3 := divn a 1 9 (3 * (3 * k - 1)) d2.2.1 st.kq3
  let den1 := mul_mod st.den d3.1 av
  let d4 := divn a 1 3 (3 * k - 2) d3.2.1 st.kq4
  let t4 := if a ≠ 2 then d4.1 * 2 else d4.1
  let v4 := if a ≠ 2 then d4.2.1 else d4.2.1 + 1
  let den2 := mul_mod den1 t4 av
  if 0 < v4 then
    let ti := if a ≠ 2 then inv_mod2 den2 av else inv_mod den2 av
    let tm := mul_mod ti num2 av
    let ts := scaleLoop a av tm (vmax - v4).toNat
    let tf := mul_mod ts (25 * k - 3) av
    let s1 := st.s + tf
    let s2 := if av ≤ s1 then s1 - av else s1
    (⟨num2, den2, s2, v4, d1.2.2, d2.2.2, d3.2.2, d4.2.2⟩, some tf)
  else
    (⟨num2, den2, st.s, v4, d1.2.2, d2.2.2, d3.2.2, d4.2.2⟩, none)

/-- The range invariant of the per-term loop: `num`, `den` and `s` all lie
in `[0, av)`. -/
def TermInv (av : Int) (st : TermState) : Prop :=
  0 ≤ st.num ∧ st.num < av ∧ 0 ≤ st.den ∧ st.den < av ∧ 0 ≤ st.s ∧ st.s < av

lemma divLoop_fst_bounds (a vinc : Int) (ha : 2 ≤ a) :
    ∀ (t v : Int), 0 ≤ t →
      0 ≤ (divLoop a vinc t v).1 ∧ (divLoop a vinc t v).1 ≤ t := by
  intro t v
  induction t, v using divLoop.induct a vinc with
  | case1 t v h =>
    intro ht
    rw [divLoop, if_pos h]
    refine ⟨Int.tdiv_nonneg ht (by omega), ?_⟩
    calc Int.tdiv t a = t / a := Int.tdiv_eq_ediv ht (by omega)
      _ ≤ t := Int.ediv_le_self a ht
  | case2 t v h h2 =>
    intro ht
    rw [divLoop, if_neg h, if_pos h2]
    refine ⟨Int.tdiv_nonneg ht (by omega), ?_⟩
    calc Int.tdiv t a = t / a := Int.tdiv_eq_ediv ht (by omega)
      _ ≤ t := Int.ediv_le_self a ht
  | case3 t v h h2 ih =>
    intro ht
    rw [divLoop, if_neg h, if_neg h2]
    have hq0 : 0 ≤ Int.tdiv t a := Int.tdiv_nonneg ht (by omega)
    obtain ⟨ih1, ih2⟩ := ih hq0
    refine ⟨ih1, le_trans ih2 ?_⟩
    calc Int.tdiv t a = t / a := Int.tdiv_eq_ediv ht (by omega)
      _ ≤ t := Int.ediv_le_self a ht

lemma divn_fst_bounds (a vinc kqinc t v kq : Int) (ha : 2 ≤ a) (ht : 0 ≤ t) :
    0 ≤ (divn a vinc kqinc t v kq).1 ∧ (divn a vinc kqinc t v kq).1 ≤ t := by
  unfold divn
  split
  · split
    · exact divLoop_fst_bounds a vinc ha t v ht
    · exact ⟨ht, le_refl t⟩
  · exact ⟨ht, le_refl t⟩

lemma scaleLoop_bounds (a av : Int) (hav : 0 < av) (hav31 : av < 2 ^ 31)
    (ha0 : 0 ≤ a) (ha31 : a < 2 ^ 31) :
    ∀ (cnt : Nat) (t : Int), 0 ≤ t → t < av →
      0 ≤ scaleLoop a av t cnt ∧ scaleLoop a av t cnt < av := by
  intro cnt
  induction cnt with
  | zero =>
    intro t ht1 ht2
    exact ⟨ht1, ht2⟩
  | succ c ih =>
    intro t ht1 ht2
    obtain ⟨m1, m2⟩ := mul_mod_bounds hav hav31 ht1 (by omega) ha0 ha31
    rw [scaleLoop]
    exact ih (mul_mod t a av) m1 m2

lemma termInit_inv (a av n : Int) (ha : 2 ≤ a) (haav : a ≤ av)
    (hav31 : av < 2 ^ 31) (hn : 0 ≤ n) : TermInv av (termInit a av n) := by
  have hav2 : (2 : Int) ≤ av := le_trans ha haav
  unfold termInit TermInv
  split
  · exact ⟨show (0 : Int) ≤ 1 by omega, show (1 : Int) < av by omega,
      show (0 : Int) ≤ 1 by omega, show (1 : Int) < av by omega,
      show (0 : Int) ≤ 0 by omega, show (0 : Int) < av by omega⟩
  · rename_i hne
    have ha3 : 3 ≤ a := by omega
    obtain ⟨p1, p2⟩ := pow_mod_bounds 2 n av (by omega) hav31 (by omega)
      (by omega) hn
    exact ⟨p1, p2, show (0 : Int) ≤ 1 by omega, show (1 : Int) < av by omega,
      show (0 : Int) ≤ 0 by omega, show (0 : Int) < av by omega⟩

lemma termStep_inv (a av vmax k : Int) (ha : 2 ≤ a) (haav : a ≤ av)
    (hav31 : av < 2 ^ 31) (hk1 : 1 ≤ k) (hk2 : k ≤ 2 ^ 26) :
    ∀ st : TermState, TermInv av st →
      TermInv av (termStep a av vmax k st).1 ∧
      ∀ t : Int, (termStep a av vmax k st).2 = some t →
        0 ≤ t ∧ t < av ∧ st.s + t < 2 * av := by
  intro st hInv
  obtain ⟨h1, h2, h3, h4, h5, h6⟩ := hInv
  have hav2 : (2 : Int) ≤ av := le_trans ha haav
  have hav0 : (0 : Int) < av := by omega
  simp only [termStep]
  set d1 := divn a (-1) 2 (2 * k) st.v st.kq1 with hd1e
  set num1 := mul_mod st.num d1.1 av with hnum1e
  set d2 := divn a (-1) 2 (2 * k - 1) d1.2.1 st.kq2 with hd2e
  set num2 := mul_mod num1 d2.1 av with hnum2e
  set d3 := divn a 1 9 (3 * (3 * k - 1)) d2.2.1 st.kq3 with hd3e
  set den1 := mul_mod st.den d3.1 av with hden1e
  set d4 := divn a 1 3 (3 * k - 2) d3.2.1 st.kq4 with hd4e
  have hb1 : 0 ≤ d1.1 ∧ d1.1 ≤ 2 * k := by
    rw [hd1e]
    exact divn_fst_bounds a (-1) 2 (2 * k) st.v st.kq1 ha (by omega)
  have hb2 : 0 ≤ d2.1 ∧ d2.1 ≤ 2 * k - 1 := by
    rw [hd2e]
    exact divn_fst_bounds a (-1) 2 (2 * k - 1) d1.2.1 st.kq2 ha (by omega)
  have hb3 : 0 ≤ d3.1 ∧ d3.1 ≤ 3 * (3 * k - 1) := by
    rw [hd3e]
    exact divn_fst_bounds a 1 9 (3 * (3 * k - 1)) d2.2.1 st.kq3 ha (by omega)
  have hb4 : 0 ≤ d4.1 ∧ d4.1 ≤ 3 * k - 2 := by
    rw [hd4e]
    exact divn_fst_bounds a 1 3 (3 * k - 2) d3.2.1 st.kq4 ha (by omega)
  have hnum1 : 0 ≤ num1 ∧ num1 < av := by
    rw [hnum1e]
    exact mul_mod_bounds hav0 hav31 h1 (by omega) hb1.1 (by omega)
  have hnum2 : 0 ≤ num2 ∧ num2 < av := by
    rw [hnum2e]
    exact mul_mod_bounds hav0 hav31 hnum1.1 (by omega) hb2.1 (by omega)
  have hden1 : 0 ≤ den1 ∧ den1 < av := by
    rw [hden1e]
    exact mul_mod_bounds hav0 hav31 h3 (by omega) hb3.1 (by omega)
  set t4 := if a ≠ 2 then d4.1 * 2 else d4.1 with ht4e
  set v4 := if a ≠ 2 then d4.2.1 else d4.2.1 + 1 with hv4e
  have ht4 : 0 ≤ t4 ∧ t4 < 2 ^ 31 := by
    rw [ht4e]
    split <;> constructor <;> omega
  have hden2 : 0 ≤ mul_mod den1 t4 av ∧ mul_mod den1 t4 av < av :=
    mul_mod_bounds hav0 hav31 hden1.1 (by omega) ht4.1 ht4.2
  set den2 := mul_mod den1 t4 av with hden2e
  have hti : 0 ≤ (if a ≠ 2 then inv_mod2 den2 av else inv_mod den2 av) ∧
      (if a ≠ 2 then inv_mod2 den2 av else inv_mod den2 av) < av := by
    split
    · exact inv_mod2_range den2 av hav2
    · exact inv_mod_range den2 av hav0
  set ti := if a ≠ 2 then inv_mod2 den2 av else inv_mod den2 av with htie
  have htm : 0 ≤ mul_mod ti num2 av ∧ mul_mod ti num2 av < av :=
    mul_mod_bounds hav0 hav31 hti.1 (by omega) hnum2.1 (by omega)
  set tm := mul_mod ti num2 av with htme
  have hts : 0 ≤ scaleLoop a av tm (vmax - v4).toNat ∧
      scaleLoop a av tm (vmax - v4).toNat < av :=
    scaleLoop_bounds a av hav0 hav31 (by omega) (by omega) _ tm htm.1 htm.2
  set ts := scaleLoop a av tm (vmax - v4).toNat with htse
  have htf : 0 ≤ mul_mod ts (25 * k - 3) av ∧
      mul_mod ts (25 * k - 3) av < av :=
    mul_mod_bounds hav0 hav31 hts.1 (by omega) (by omega) (by omega)
  set tf := mul_mod ts (25 * k - 3) av with htfe
  split
  · -- tally positive: the addend tf is folded into s
    refine ⟨⟨hnum2.1, hnum2.2, hden2.1, hden2.2, ?_, ?_⟩, ?_⟩
    · show 0 ≤ if av ≤ st.s + tf then st.s + tf - av else st.s + tf
      split <;> omega
    · show (if av ≤ st.s + tf then st.s + tf - av else st.s + tf) < av
      split <;> omega
    · intro t ht
      have ht' : some tf = some t := ht
      obtain rfl : tf = t := Option.some.inj ht'
      exact ⟨htf.1, htf.2, by omega⟩
  · -- tally not positive: s unchanged
    refine ⟨⟨hnum2.1, hnum2.2, hden2.1, hden2.2, h5, h6⟩, ?_⟩
    intro t ht
    exact absurd ht (by simp)

/-- C9: throughout the per-term loop of `calc_digits` the running numerator,
running denominator and channel partial sum stay in `[0, av)`: the initial
channel state satisfies the invariant, one loop iteration (`termStep`)
preserves it, and every addend folded into `s` is already strictly less than
`av` — so `s + t < 2·av` and the single conditional subtraction of `av`
suffices to keep `s` reduced.  The hypotheses record the context in which
`calc_digits` runs the loop: a prime base `a ≥ 2`, a channel modulus
`av = a^vmax ≥ a` representable in `i32`, a digit offset `n ≥ 0`, and a term
index `k` in the range the `i32` arithmetic supports. -/
theorem calc_digits_term_invariant (a av vmax n k : Int) (ha : 2 ≤ a)
    (haav : a ≤ av) (hav31 : av < 2 ^ 31) (hn : 0 ≤ n) (hk1 : 1 ≤ k)
    (hk2 : k ≤ 2 ^ 26) :
    TermInv av (termInit a av n) ∧
    ∀ st : TermState, TermInv av st →
      TermInv av (termStep a av vmax k st).1 ∧
      ∀ t : Int, (termStep a av vmax k st).2 = some t →
        0 ≤ t ∧ t < av ∧ st.s + t < 2 * av :=
  ⟨termInit_inv a av n ha haav hav31 hn,
    termStep_inv a av vmax k ha haav hav31 hk1 hk2⟩

theorem calc_digits_term_invariant_witness :
    (2 : Int) ≤ 3 ∧ (3 : Int) ≤ 9 ∧ (9 : Int) < 2 ^ 31 ∧ (0 : Int) ≤ 1 ∧
      (1 : Int) ≤ 1 ∧ (1 : Int) ≤ 2 ^ 26 ∧
      (TermInv 9 (termInit 3 9 1) ∧
        ∀ st : TermState, TermInv 9 st →
          TermInv 9 (termStep 3 9 2 1 st).1 ∧
          ∀ t : Int, (termStep 3 9 2 1 st).2 = some t →
            0 ≤ t ∧ t < 9 ∧ st.s + t < 2 * 9) :=
  ⟨by decide, by decide, by decide, by decide, by decide, by decide,
    calc_digits_term_invariant 3 9 2 1 1 (by decide) (by decide) (by decide)
      (by decide) (by decide) (by decide)⟩
